import Mathlib

/-!
Formal model of the fuzler fuzzy-similarity engine
(`src/native/fuzler/src/lib.rs`).

Modelling conventions:
* Input strings are modelled as lists of bytes (`Str := List Nat`).
  Tokenisation (`split_whitespace`) splits on the ASCII whitespace bytes;
  on ASCII input this coincides with Rust's Unicode-aware splitting, and
  UTF-8 continuation bytes (all `≥ 0x80`) never collide with ASCII
  whitespace, so byte-level splitting at ASCII whitespace is faithful for
  ASCII-whitespace-separated input.
* `f64` scores are modelled as exact rationals `ℚ`.  All arithmetic the
  claims mention (`0.7·t + 0.3·c`, `1 − k/n`, `round(x·100)/100`) is exact
  at the granularity of the claims.
* `triple_accel::levenshtein::levenshtein_simd_k(a, b, k)` returns
  `Some(dist)` when the Levenshtein distance is at most `k` and `None`
  otherwise; it is modelled by the total `levenshtein` distance from
  Mathlib together with the threshold test `dist ≤ k`.
* Rust's `f64::round` rounds half away from zero (`rustRound`).
* The window pad `((len_q as f32) * 0.30).ceil() as usize` is modelled as
  `⌈3·len_q/10⌉ = (3·len_q + 9) / 10`: a direct computation of the `f32`
  arithmetic shows the two agree for every `len_q ≤ 40`, and the pad is
  only evaluated when `2 ≤ len_q ≤ 20`.
-/

namespace Fuzler

/-- Byte strings: a Rust `&str` viewed as its byte sequence. -/
abbrev Str := List Nat

/-- ASCII whitespace bytes (space, tab, LF, VT, FF, CR): the byte-level
counterpart of `char::is_whitespace` used by `split_whitespace`. -/
def isWs (c : Nat) : Bool :=
  c == 32 || c == 9 || c == 10 || c == 11 || c == 12 || c == 13

/-- Tokeniser worker: walks the byte list, carrying the current position `i`
and the token run currently being built (`acc = some (start, len)`), and
emits the `(start, len)` byte ranges of the maximal non-whitespace runs.
Models `s.split_whitespace()` (which yields zero-copy subslices;  here a
token is identified by its byte range in the source). -/
def tokensGo : Str → Nat → Option (Nat × Nat) → List (Nat × Nat)
  | [], _, none => []
  | [], _, some t => [t]
  | c :: rest, i, none =>
      if isWs c then tokensGo rest (i + 1) none
      else tokensGo rest (i + 1) (some (i, 1))
  | c :: rest, i, some t =>
      if isWs c then t :: tokensGo rest (i + 1) none
      else tokensGo rest (i + 1) (some (t.1, t.2 + 1))

/-- Byte ranges `(start, len)` of the whitespace-delimited tokens of `s`. -/
def tokens (s : Str) : List (Nat × Nat) := tokensGo s 0 none

/-- Substring of `s` starting at byte `st`, of length `l`. -/
def substr (s : Str) (st l : Nat) : Str := (s.drop st).take l

/-- Texts of the tokens of `s`, in order (models collecting
`split_whitespace` into a vector of `&str`). -/
def tokenStrs (s : Str) : List Str := (tokens s).map (fun p => substr s p.1 p.2)

/-- Models `span_from_tokens`: the byte slice of `haystack` that covers a
run of tokens, from the first token's start to the last token's end
(`unsafe { haystack.get_unchecked(start..end) }` in the source); the empty
run yields the empty string. -/
def span_from_tokens (s : Str) (toks : List (Nat × Nat)) : Str :=
  match toks with
  | [] => []
  | t :: rest =>
      let lastT := rest.getLastD t
      substr s t.1 (lastT.1 + lastT.2 - t.1)

/-- Positional mismatch count of two byte strings, truncated to the shorter
length: models `triple_accel::hamming::hamming` applied to equal-length
slices. -/
def mismatches (a b : Str) : Nat :=
  (List.zipWith (fun x y => if x = y then 0 else 1) a b).sum

/-- Levenshtein distance with unit costs, as used by
`levenshtein_simd_k` (delete = insert = 1, substitute = 0 or 1). -/
def lev (a b : Str) : Nat := levenshtein Levenshtein.defaultCost a b

/-- Models `char_similarity`: empty-string cases, the Hamming fast path for
`|len a − len b| ≤ HAMMING_WINDOW = 2`, and the banded Levenshtein path with
band `max(64, max len)`; `levenshtein_simd_k` returning `None` (distance
beyond the band) is the final `0` branch. -/
def char_similarity (a b : Str) : ℚ :=
  let al := a.length
  let bl := b.length
  if al = 0 ∧ bl = 0 then 1
  else if al = 0 ∨ bl = 0 then 0
  else if max al bl - min al bl ≤ 2 then
    let len := min al bl
    1 - (mismatches (a.take len) (b.take len) : ℚ) * (1 / (len : ℚ))
  else
    let m := max al bl
    let kBand := if m ≤ 64 then 64 else m
    if lev a b ≤ kBand then 1 - (lev a b : ℚ) / (m : ℚ) else 0

/-- Models `token_jaccard_multiset`: `None` when neither input contains a
space byte (0x20) — the source's `!a.contains(' ') && !b.contains(' ')`
gate — otherwise the multiset-Jaccard ratio over token frequency counts.
The hash-map iteration of the source is order-insensitive (it only sums),
so it is modelled by summing over the deduplicated token list of `a` plus
the keys of `b` missing from `a`. -/
def token_jaccard_multiset (a b : Str) : Option ℚ :=
  if !(a.contains 32) && !(b.contains 32) then none
  else
    let ta := tokenStrs a
    let tb := tokenStrs b
    let inter := (ta.dedup.map (fun k => min (ta.count k) (tb.count k))).sum
    let unionN := (ta.dedup.map (fun k => max (ta.count k) (tb.count k))).sum
      + ((tb.dedup.filter (fun k => !(ta.contains k))).map (fun k => tb.count k)).sum
    if unionN = 0 then some 0 else some ((inter : ℚ) / (unionN : ℚ))

/-- Models `blend_token_char_raw`: `0.7·token + 0.3·char` when the token
metric applies, otherwise the character metric alone. -/
def blend_token_char_raw (a b : Str) : ℚ :=
  match token_jaccard_multiset a b with
  | some t => 7/10 * t + 3/10 * char_similarity a b
  | none => char_similarity a b

/-- Contiguous windows of `w` consecutive elements (models
`slice::windows(w)` for `w ≥ 1`: empty when `w > length`). -/
def windowsOf (l : List (Nat × Nat)) (w : Nat) : List (List (Nat × Nat)) :=
  (List.range (l.length + 1 - w)).map (fun i => (l.drop i).take w)

/-- Window pad: models `((len_q as f32) * 0.30).ceil() as usize`, which for
every reachable `len_q` (the pad is used only when `2 ≤ len_q ≤ 20`) equals
`⌈3·len_q/10⌉`. -/
def padOf (lq : Nat) : Nat := (3 * lq + 9) / 10

/-- The sliding-window search loop of `partial_similarity`, on the list of
candidate blend scores in evaluation order: keeps the running best and
returns the literal `1` as soon as a candidate is `> best` and `≥ 1`. -/
def bestLoop : List ℚ → ℚ → ℚ
  | [], best => best
  | c :: rest, best =>
      if best < c then (if 1 ≤ c then 1 else bestLoop rest c)
      else bestLoop rest best

/-- Candidate blend scores of `partial_similarity`, in evaluation order:
for each window size `w` in `[wmin, wmax]`, for each window of `w`
consecutive target tokens, the blend score of the query against the
window's span. -/
def windowCandidates (query target : Str) (tt : List (Nat × Nat))
    (wmin wmax : Nat) : List ℚ :=
  ((List.range' wmin (wmax + 1 - wmin)).map
    (fun w => (windowsOf tt w).map
      (fun sl => blend_token_char_raw query (span_from_tokens target sl)))).flatten

/-- Models `partial_similarity`: whole-string blend for trivial (`≤ 1`
token) or very long (`> 20` tokens) queries, `0` for a tokenless target,
otherwise the best sliding-window blend score with the `1.0`
short-circuit. -/
def partial_similarity (query target : Str) : ℚ :=
  let lq := (tokens query).length
  if lq ≤ 1 ∨ 20 < lq then blend_token_char_raw query target
  else
    let tt := tokens target
    if tt = [] then 0
    else
      let pad := padOf lq
      let wmin := max (lq - pad) 1
      let wmax := min (min (lq + pad) 30) tt.length
      bestLoop (windowCandidates query target tt wmin wmax) 0

/-- Fuel-indexed chunking worker (the fuel only serves to make the
recursion structural; `fuel ≥ l.length` and `n ≥ 1` make it total). -/
def chunksGo (n : Nat) : Nat → List (Nat × Nat) → List (List (Nat × Nat))
  | _, [] => []
  | 0, _ :: _ => []
  | fuel + 1, l => l.take n :: chunksGo n fuel (l.drop n)

/-- Consecutive non-overlapping chunks of `n` elements, last chunk possibly
shorter (models `slice::chunks(n)` for `n ≥ 1`). -/
def chunksOf (n : Nat) (l : List (Nat × Nat)) : List (List (Nat × Nat)) :=
  chunksGo n l.length l

/-- Models a tokenised input (`struct Prepared`): the raw bytes paired with
the token ranges. -/
structure Prepared where
  raw : Str
  tokens : List (Nat × Nat)

/-- Models `Prepared::new`. -/
def Prepared.new (s : Str) : Prepared := ⟨s, Fuzler.tokens s⟩

/-- The accumulation loop of `aggregated_partial_similarity` over the chunk
list: adds each chunk's sliding-window score, returns `1` as soon as the
running total reaches `1`, else `min total 1` at the end. -/
def aggLoop (qraw traw : Str) : List (List (Nat × Nat)) → ℚ → ℚ
  | [], total => min total 1
  | ch :: rest, total =>
      let t := total + partial_similarity qraw (span_from_tokens traw ch)
      if 1 ≤ t then 1 else aggLoop qraw traw rest t

/-- Models `aggregated_partial_similarity`: `0` for a tokenless target,
otherwise the chunked sum of sliding-window scores with chunk length
`clamp(max(q_len,1)·3, 50, 100)` capped at the target's token count. -/
def aggregated_partial_similarity (query target : Prepared) : ℚ :=
  if target.tokens = [] then 0
  else
    let qLen := max query.tokens.length 1
    let chunkLen := min (min (max (qLen * 3) 50) 100) target.tokens.length
    aggLoop query.raw target.raw (chunksOf chunkLen target.tokens) 0

/-- Rational floor, kept executable (`⌊x⌋` for `ℚ`). -/
def ratFloor (x : ℚ) : ℤ := x.num / (x.den : ℤ)

/-- Rust's `f64::round`: round half away from zero. -/
def rustRound (x : ℚ) : ℤ :=
  if 0 ≤ x then ratFloor (x + 1/2) else -(ratFloor (1/2 - x))

/-- Models `similarity_score`, the top-level scorer: orient the pair so the
side with fewer tokens is the query (ties keep `a`), take the max of the
chunked-aggregate score and the whole-string blend, and round to two
decimals. -/
def similarity_score (a b : Str) : ℚ :=
  let aP := Prepared.new a
  let bP := Prepared.new b
  let qt := if aP.tokens.length ≤ bP.tokens.length then (aP, bP) else (bP, aP)
  let partialScore := aggregated_partial_similarity qt.1 qt.2
  let blended := blend_token_char_raw qt.1.raw qt.2.raw
  let score := max partialScore blended
  (rustRound (score * 100) : ℚ) / 100

/-- Spec-side restatement of the Top-Level Scorer, written from the claim's
words (query = side with the smaller token count, ties keep `a`; score =
max of chunked aggregate and whole-string blend over the oriented pair;
round by `·100`, nearest integer, `/100`), to be compared with
`similarity_score`. -/
def specTopLevelScore (a b : Str) : ℚ :=
  let q := if (tokens a).length ≤ (tokens b).length then a else b
  let t := if (tokens a).length ≤ (tokens b).length then b else a
  let score := max (aggregated_partial_similarity (Prepared.new q) (Prepared.new t))
      (blend_token_char_raw q t)
  (rustRound (score * 100) : ℚ) / 100

/-- Spec-side mismatch count, written from the claim's words: the number of
positions `i` below `min (len a) (len b)` whose bytes differ. -/
def specMismatches (a b : Str) : ℕ :=
  (List.range (min a.length b.length)).countP (fun i => !(a.getD i 0 == b.getD i 0))

/-! Basic bounds on the leaf metrics. -/

/-- The positional mismatch count never exceeds the compared length. -/
theorem mismatches_le (a b : Str) : mismatches a b ≤ min a.length b.length := by
  induction a generalizing b with
  | nil => simp [mismatches]
  | cons x xs ih =>
    cases b with
    | nil => simp [mismatches]
    | cons y ys =>
      have h := ih ys
      simp only [mismatches, List.zipWith_cons_cons, List.sum_cons, List.length_cons] at h ⊢
      split <;> omega

/-- A string has no positional mismatches against itself. -/
theorem mismatches_self (a : Str) : mismatches a a = 0 := by
  induction a with
  | nil => simp [mismatches]
  | cons x xs ih => simp_all [mismatches]

/-- The unit-cost Levenshtein distance is at most the longer length (each
excess element deleted, the rest substituted), so the banded computation
with band `≥ max length` always finds the distance. -/
theorem lev_le_max (a b : Str) : lev a b ≤ max a.length b.length := by
  induction a generalizing b with
  | nil =>
    induction b with
    | nil => simp [lev]
    | cons y ys ihb => simp only [lev, levenshtein_nil_cons] at ihb ⊢; simp at ihb ⊢; omega
  | cons x xs ih =>
    cases b with
    | nil =>
      have h := ih []
      simp only [lev, levenshtein_cons_nil] at h ⊢
      simp at h ⊢
      omega
    | cons y ys =>
      have h3 := ih ys
      simp only [lev, levenshtein_cons_cons, Levenshtein.defaultCost_delete,
        Levenshtein.defaultCost_insert, Levenshtein.defaultCost_substitute,
        List.length_cons] at h3 ⊢
      split <;> omega

/-- Folding `max` from a seed stays below any common upper bound. -/
theorem foldr_max_le_of (l : List ℚ) : ∀ x B : ℚ, (∀ c ∈ l, c ≤ B) → x ≤ B →
    l.foldr max x ≤ B := by
  induction l with
  | nil => intro x B _ hx; simpa using hx
  | cons c rest ih =>
    intro x B hc hx
    simp only [List.foldr_cons]
    exact max_le (hc c (by simp)) (ih x B (fun d hd => hc d (by simp [hd])) hx)

/-- The seed is a lower bound of a `max`-fold. -/
theorem le_foldr_max_seed (l : List ℚ) : ∀ x : ℚ, x ≤ l.foldr max x := by
  induction l with
  | nil => intro x; simp
  | cons c rest ih =>
    intro x
    exact le_trans (ih x) (le_max_right c (rest.foldr max x))

/-- Raising the seed of a `max`-fold to a larger value `x` is the same as
taking `max x` of the whole fold. -/
theorem foldr_max_shift (l : List ℚ) : ∀ x y : ℚ, y ≤ x →
    l.foldr max x = max x (l.foldr max y) := by
  induction l with
  | nil => intro x y h; simp [max_eq_left h]
  | cons c rest ih =>
    intro x y h
    simp only [List.foldr_cons, ih x y h]
    rw [max_left_comm]

/-- The sliding-window loop with its `1.0` short-circuit computes the plain
maximum of the candidate scores over the seed, provided no candidate
exceeds `1` and the seed is at most `1`. -/
theorem bestLoop_eq_foldr (cands : List ℚ) : ∀ best : ℚ, (∀ c ∈ cands, c ≤ 1) →
    best ≤ 1 → bestLoop cands best = cands.foldr max best := by
  induction cands with
  | nil => intro best _ _; simp [bestLoop]
  | cons c rest ih =>
    intro best hc hb
    have hc1 : c ≤ 1 := hc c (by simp)
    have hrest : ∀ d ∈ rest, d ≤ 1 := fun d hd => hc d (by simp [hd])
    simp only [bestLoop, List.foldr_cons]
    by_cases h1 : best < c
    · rw [if_pos h1]
      by_cases h2 : (1:ℚ) ≤ c
      · rw [if_pos h2]
        have hceq : c = 1 := le_antisymm hc1 h2
        have hf : rest.foldr max best ≤ 1 := foldr_max_le_of rest best 1 hrest hb
        rw [hceq, max_eq_left hf]
      · rw [if_neg h2]
        rw [ih c hrest (le_of_not_le h2)]
        exact foldr_max_shift rest c best (le_of_lt h1)
    · rw [if_neg h1]
      rw [ih best hrest hb]
      exact (max_eq_right (le_trans (le_of_not_lt h1) (le_foldr_max_seed rest best))).symm

/-- In the token-multiset metric the intersection sum never exceeds the
union sum. -/
theorem jaccard_inter_le_union (ta tb : List Str) :
    (ta.dedup.map (fun k => min (ta.count k) (tb.count k))).sum ≤
      (ta.dedup.map (fun k => max (ta.count k) (tb.count k))).sum
      + ((tb.dedup.filter (fun k => !(ta.contains k))).map (fun k => tb.count k)).sum := by
  have h1 : (ta.dedup.map (fun k => min (ta.count k) (tb.count k))).sum ≤
      (ta.dedup.map (fun k => max (ta.count k) (tb.count k))).sum :=
    List.sum_le_sum (fun k _ => le_trans (Nat.min_le_left _ _) (Nat.le_max_left _ _))
  omega

/-- The token-multiset Jaccard score, when defined, lies in `[0, 1]`. -/
theorem token_jaccard_mem (a b : Str) (t : ℚ) (h : token_jaccard_multiset a b = some t) :
    0 ≤ t ∧ t ≤ 1 := by
  rw [token_jaccard_multiset] at h
  split at h
  · exact absurd h (by simp)
  · dsimp only at h
    split at h
    · rw [Option.some_inj] at h
      exact ⟨by rw [← h], by rw [← h]; norm_num⟩
    · rw [Option.some_inj] at h
      rename_i hu
      rw [← h]
      have hpos : 0 < ((tokenStrs a).dedup.map
          (fun k => max ((tokenStrs a).count k) ((tokenStrs b).count k))).sum
          + (((tokenStrs b).dedup.filter
              (fun k => !((tokenStrs a).contains k))).map
            (fun k => (tokenStrs b).count k)).sum := Nat.pos_of_ne_zero hu
      constructor
      · positivity
      · rw [div_le_one (by exact_mod_cast hpos)]
        exact_mod_cast jaccard_inter_le_union (tokenStrs a) (tokenStrs b)

/-- The character metric lies in `[0, 1]`. -/
theorem char_similarity_mem (a b : Str) :
    0 ≤ char_similarity a b ∧ char_similarity a b ≤ 1 := by
  have key : 0 ≤ 1 - ((lev a b : ℕ) : ℚ) / ((max a.length b.length : ℕ) : ℚ) ∧
      1 - ((lev a b : ℕ) : ℚ) / ((max a.length b.length : ℕ) : ℚ) ≤ 1 := by
    rcases Nat.eq_zero_or_pos (max a.length b.length) with hm | hm
    · rw [hm]
      norm_num
    · have hmq : (0:ℚ) < ((max a.length b.length : ℕ) : ℚ) := by exact_mod_cast hm
      have hq : ((lev a b : ℕ) : ℚ) / ((max a.length b.length : ℕ) : ℚ) ≤ 1 := by
        rw [div_le_one hmq]
        exact_mod_cast lev_le_max a b
      have hq0 : (0:ℚ) ≤ ((lev a b : ℕ) : ℚ) / ((max a.length b.length : ℕ) : ℚ) := by
        positivity
      exact ⟨by linarith, by linarith⟩
  have keyF : 0 ≤ 1 - ((mismatches (a.take (min a.length b.length))
          (b.take (min a.length b.length)) : ℕ) : ℚ)
        * (1 / ((min a.length b.length : ℕ) : ℚ)) ∧
      1 - ((mismatches (a.take (min a.length b.length))
          (b.take (min a.length b.length)) : ℕ) : ℚ)
        * (1 / ((min a.length b.length : ℕ) : ℚ)) ≤ 1 := by
    rcases Nat.eq_zero_or_pos (min a.length b.length) with hl | hl
    · rw [hl]
      norm_num
    · have hm : mismatches (a.take (min a.length b.length))
          (b.take (min a.length b.length)) ≤ min a.length b.length := by
        refine le_trans (mismatches_le _ _) ?_
        simp only [List.length_take]
        omega
      have hlq : (0:ℚ) < ((min a.length b.length : ℕ) : ℚ) := by exact_mod_cast hl
      have hq : ((mismatches (a.take (min a.length b.length))
            (b.take (min a.length b.length)) : ℕ) : ℚ)
          * (1 / ((min a.length b.length : ℕ) : ℚ)) ≤ 1 := by
        rw [mul_one_div, div_le_one hlq]
        exact_mod_cast hm
      have hq0 : (0:ℚ) ≤ ((mismatches (a.take (min a.length b.length))
            (b.take (min a.length b.length)) : ℕ) : ℚ)
          * (1 / ((min a.length b.length : ℕ) : ℚ)) := by positivity
      exact ⟨by linarith, by linarith⟩
  simp only [char_similarity]
  split_ifs with h1 h2 h3 h4 h5 h6
  · norm_num
  · norm_num
  · exact keyF
  · exact key
  · norm_num
  · exact key
  · norm_num

/-- The blend of the two metrics lies in `[0, 1]`. -/
theorem blend_mem (a b : Str) :
    0 ≤ blend_token_char_raw a b ∧ blend_token_char_raw a b ≤ 1 := by
  rw [blend_token_char_raw]
  cases h : token_jaccard_multiset a b with
  | none => exact char_similarity_mem a b
  | some t =>
    have ht := token_jaccard_mem a b t h
    have hc := char_similarity_mem a b
    constructor
    · have : (0:ℚ) ≤ 7/10 * t := by linarith [ht.1]
      have : (0:ℚ) ≤ 3/10 * char_similarity a b := by linarith [hc.1]
      linarith
    · have h7 : 7/10 * t ≤ 7/10 := by linarith [ht.2]
      have h3 : 3/10 * char_similarity a b ≤ 3/10 := by linarith [hc.2]
      linarith

/-- Every sliding-window candidate score is a blend score of the query
against some window span. -/
theorem windowCandidates_shape (query target : Str) (tt : List (Nat × Nat))
    (wmin wmax : Nat) (c : ℚ) (hc : c ∈ windowCandidates query target tt wmin wmax) :
    ∃ sl, c = blend_token_char_raw query (span_from_tokens target sl) := by
  simp only [windowCandidates, List.mem_flatten, List.mem_map] at hc
  obtain ⟨l, ⟨w, _hw, rfl⟩, hcl⟩ := hc
  obtain ⟨sl, _hsl, rfl⟩ := List.mem_map.mp hcl
  exact ⟨sl, rfl⟩

/-- The sliding-window loop over a candidate list of blend scores stays in
`[0, 1]`. -/
theorem bestLoop_windows_mem (query target : Str) (tt : List (Nat × Nat))
    (wmin wmax : Nat) :
    0 ≤ bestLoop (windowCandidates query target tt wmin wmax) 0 ∧
      bestLoop (windowCandidates query target tt wmin wmax) 0 ≤ 1 := by
  have hall : ∀ c ∈ windowCandidates query target tt wmin wmax, c ≤ 1 := by
    intro c hc
    obtain ⟨sl, rfl⟩ := windowCandidates_shape query target tt wmin wmax c hc
    exact (blend_mem _ _).2
  rw [bestLoop_eq_foldr _ 0 hall (by norm_num)]
  constructor
  · exact le_foldr_max_seed _ 0
  · exact foldr_max_le_of _ 0 1 hall (by norm_num)

/-- The sliding-window matcher's score lies in `[0, 1]`. -/
theorem partial_similarity_mem (q t : Str) :
    0 ≤ partial_similarity q t ∧ partial_similarity q t ≤ 1 := by
  simp only [partial_similarity]
  split_ifs with h1 h2
  · exact blend_mem q t
  · norm_num
  · exact bestLoop_windows_mem q t (tokens t) _ _

/-- The chunk accumulation loop never exceeds `1`. -/
theorem aggLoop_le_one (q t : Str) : ∀ (chs : List (List (Nat × Nat))) (total : ℚ),
    aggLoop q t chs total ≤ 1 := by
  intro chs
  induction chs with
  | nil => intro total; exact min_le_right _ _
  | cons ch rest ih =>
    intro total
    simp only [aggLoop]
    split
    · exact le_refl 1
    · exact ih _

/-- The chunk accumulation loop is nonnegative for a nonnegative running
total. -/
theorem aggLoop_nonneg (q t : Str) : ∀ (chs : List (List (Nat × Nat))) (total : ℚ),
    0 ≤ total → 0 ≤ aggLoop q t chs total := by
  intro chs
  induction chs with
  | nil => intro total h; exact le_min h (by norm_num)
  | cons ch rest ih =>
    intro total h
    simp only [aggLoop]
    have ht : 0 ≤ total + partial_similarity q (span_from_tokens t ch) :=
      add_nonneg h (partial_similarity_mem _ _).1
    split
    · norm_num
    · exact ih _ ht

/-- The chunk accumulation loop with its `1.0` short-circuit computes
exactly `min (total + sum of chunk scores) 1`: the early exit changes
nothing because chunk scores are nonnegative. -/
theorem aggLoop_eq_min (q t : Str) : ∀ (chs : List (List (Nat × Nat))) (total : ℚ),
    aggLoop q t chs total =
      min (total + (chs.map (fun ch => partial_similarity q (span_from_tokens t ch))).sum) 1 := by
  intro chs
  induction chs with
  | nil => intro total; simp [aggLoop]
  | cons ch rest ih =>
    intro total
    simp only [aggLoop, List.map_cons, List.sum_cons]
    have hS : 0 ≤ (rest.map (fun ch => partial_similarity q (span_from_tokens t ch))).sum := by
      refine List.sum_nonneg ?_
      intro x hx
      obtain ⟨ch2, _h2, rfl⟩ := List.mem_map.mp hx
      exact (partial_similarity_mem _ _).1
    split
    · rename_i hge
      exact (min_eq_right (by linarith)).symm
    · rw [ih (total + partial_similarity q (span_from_tokens t ch)), add_assoc]

/-- The chunked aggregator's score lies in `[0, 1]`. -/
theorem aggregated_mem (q t : Prepared) :
    0 ≤ aggregated_partial_similarity q t ∧ aggregated_partial_similarity q t ≤ 1 := by
  simp only [aggregated_partial_similarity]
  split_ifs with h1
  · norm_num
  · exact ⟨aggLoop_nonneg _ _ _ 0 (le_refl 0), aggLoop_le_one _ _ _ 0⟩

/-- Executable floor agrees with the mathematical floor on `ℚ`. -/
theorem ratFloor_eq (x : ℚ) : ratFloor x = ⌊x⌋ := by
  rw [ratFloor, Rat.floor_def]

/-- Rounding a score in `[0, 1]` to two decimals yields `n/100` with
`0 ≤ n ≤ 100`. -/
theorem round_score_bounds (s : ℚ) (h0 : 0 ≤ s) (h1 : s ≤ 1) :
    0 ≤ rustRound (s * 100) ∧ rustRound (s * 100) ≤ 100 := by
  rw [rustRound, if_pos (by linarith), ratFloor_eq]
  constructor
  · exact Int.floor_nonneg.mpr (by linarith)
  · have : s * 100 + 1/2 ≤ 201/2 := by linarith
    calc ⌊s * 100 + 1/2⌋ ≤ ⌊(201/2 : ℚ)⌋ := Int.floor_le_floor this
    _ = 100 := by norm_num [Int.floor_eq_iff]

/-- The top-level score, abstracted over the oriented pair: it always has
the shape `round(100·max(partial, blended))/100` for some oriented pair of
prepared inputs. -/
theorem similarity_score_shape (a b : Str) : ∃ q t : Prepared,
    similarity_score a b = (rustRound ((max (aggregated_partial_similarity q t)
      (blend_token_char_raw q.raw t.raw)) * 100) : ℚ) / 100 := by
  by_cases h : (Prepared.new a).tokens.length ≤ (Prepared.new b).tokens.length
  · exact ⟨Prepared.new a, Prepared.new b, by simp only [similarity_score]; rw [if_pos h]⟩
  · exact ⟨Prepared.new b, Prepared.new a, by simp only [similarity_score]; rw [if_neg h]⟩

/-- C8: for all pairs of input strings, the value returned by
`compute_similarity` lies in `[0, 1]` and is an exact multiple of `0.01`
(some `n/100` with `0 ≤ n ≤ 100`). -/
theorem C8_bounds_and_hundredths (a b : Str) :
    0 ≤ similarity_score a b ∧ similarity_score a b ≤ 1 ∧
      ∃ n : ℤ, 0 ≤ n ∧ n ≤ 100 ∧ similarity_score a b = (n : ℚ) / 100 := by
  obtain ⟨q, t, hqt⟩ := similarity_score_shape a b
  rw [hqt]
  have h0 : 0 ≤ max (aggregated_partial_similarity q t)
      (blend_token_char_raw q.raw t.raw) :=
    le_trans (aggregated_mem q t).1 (le_max_left _ _)
  have h1 : max (aggregated_partial_similarity q t)
      (blend_token_char_raw q.raw t.raw) ≤ 1 :=
    max_le (aggregated_mem q t).2 (blend_mem _ _).2
  obtain ⟨hr0, hr1⟩ := round_score_bounds _ h0 h1
  refine ⟨?_, ?_, rustRound (max (aggregated_partial_similarity q t)
      (blend_token_char_raw q.raw t.raw) * 100), hr0, hr1, rfl⟩
  · exact div_nonneg (by exact_mod_cast hr0) (by norm_num)
  · rw [div_le_one (by norm_num)]
    exact_mod_cast hr1

/-- C3: the Top-Level Scorer picks as query the input with the smaller
token count (ties keep the first argument), scores the oriented pair with
the Chunked Aggregator and the whole-string Blend Function, and returns
the larger of the two rounded to two decimals — i.e. `similarity_score`
agrees with the spec-side restatement `specTopLevelScore`. -/
theorem C3_top_level_refines_spec (a b : Str) :
    similarity_score a b = specTopLevelScore a b := by
  simp only [similarity_score, specTopLevelScore, Prepared.new]
  by_cases h : (tokens a).length ≤ (tokens b).length
  · rw [if_pos h, if_pos h, if_pos h]
  · rw [if_neg h, if_neg h, if_neg h]

/-- C10: when the two inputs have different token counts, swapping the
arguments gives the exact same score, because orientation normalises both
calls to the same (query, target) pair. -/
theorem C10_symmetry_of_unequal_counts (a b : Str)
    (h : (tokens a).length ≠ (tokens b).length) :
    similarity_score a b = similarity_score b a := by
  simp only [similarity_score, Prepared.new]
  rcases Nat.lt_or_ge (tokens a).length (tokens b).length with hlt | hge
  · rw [if_pos (Nat.le_of_lt hlt), if_neg (by omega)]
  · have hgt : (tokens b).length < (tokens a).length := by omega
    rw [if_neg (by omega), if_pos (Nat.le_of_lt hgt)]

/-- Witness for C10 at `"x"` versus `"y z"` (1 token versus 2 tokens). -/
theorem C10_witness :
    (tokens [120]).length ≠ (tokens [121, 32, 122]).length ∧
      similarity_score [120] [121, 32, 122] = similarity_score [121, 32, 122] [120] :=
  ⟨by decide, C10_symmetry_of_unequal_counts [120] [121, 32, 122] (by decide)⟩

/-- The character metric of a non-empty string against itself is exactly
`1` (equal lengths, zero mismatches). -/
theorem char_similarity_self (s : Str) (h : s ≠ []) : char_similarity s s = 1 := by
  have hl : s.length ≠ 0 := by simpa using h
  simp only [char_similarity]
  rw [if_neg (by omega), if_neg (by omega), if_pos (by omega)]
  simp [mismatches_self]

/-- The token-multiset metric of a string with at least one token (and at
least one space byte, so the metric applies) against itself is exactly
`1`. -/
theorem token_jaccard_self (s : Str) (hsp : s.contains 32 = true)
    (ht : tokens s ≠ []) : token_jaccard_multiset s s = some 1 := by
  have hmem : 32 ∈ s := by simpa using hsp
  rw [token_jaccard_multiset]
  rw [if_neg (by simp [hmem])]
  dsimp only
  have hfil : ((tokenStrs s).dedup.filter (fun k => !((tokenStrs s).contains k))) = [] := by
    rw [List.filter_eq_nil_iff]
    intro k hk
    simp [List.mem_dedup.mp hk]
  rw [hfil]
  simp only [min_self, max_self, List.map_nil, List.sum_nil, add_zero]
  have hne : tokenStrs s ≠ [] := by simpa [tokenStrs] using ht
  have hpos : 0 < ((tokenStrs s).dedup.map (fun k => (tokenStrs s).count k)).sum := by
    rcases hd : (tokenStrs s).dedup with _ | ⟨k, ks⟩
    · exact absurd ((List.dedup_eq_nil (tokenStrs s)).mp hd) hne
    · have hk : k ∈ tokenStrs s := by
        have hkd : k ∈ (tokenStrs s).dedup := by
          rw [hd]
          exact List.mem_cons_self k ks
        exact List.mem_dedup.mp hkd
      have hc : 0 < (tokenStrs s).count k := List.count_pos_iff.mpr hk
      simp only [hd, List.map_cons, List.sum_cons]
      omega
  rw [if_neg (by omega)]
  have hq : ((((tokenStrs s).dedup.map (fun k => (tokenStrs s).count k)).sum : ℕ) : ℚ) ≠ 0 :=
    Nat.cast_ne_zero.mpr (by omega)
  rw [div_self hq]

/-- The blend of a string with itself is `1` whenever the string has a
token or has no space byte. -/
theorem blend_self (s : Str) (h : s ≠ [])
    (h2 : tokens s ≠ [] ∨ s.contains 32 = false) :
    blend_token_char_raw s s = 1 := by
  rw [blend_token_char_raw]
  by_cases hc : s.contains 32 = true
  · rcases h2 with ht | hf
    · rw [token_jaccard_self s hc ht, char_similarity_self s h]
      norm_num
    · rw [hc] at hf
      exact absurd hf (by simp)
  · have hn : token_jaccard_multiset s s = none := by
      rw [token_jaccard_multiset, if_pos (by simp [Bool.not_eq_true] at hc; simp [hc])]
    rw [hn, char_similarity_self s h]

/-- C1 (amended): `compute_similarity(s, s) = 1.0` for every non-empty `s`
that has at least one token or no space byte; the original claim fails
only for all-whitespace strings containing a space (see the
counterexample). -/
theorem C1_identity_amended (s : Str) (h : s ≠ [])
    (h2 : tokens s ≠ [] ∨ s.contains 32 = false) :
    similarity_score s s = 1 := by
  simp only [similarity_score, Prepared.new]
  rw [if_pos (le_refl _)]
  rw [blend_self s h h2]
  rw [max_eq_right (aggregated_mem ⟨s, tokens s⟩ ⟨s, tokens s⟩).2]
  have h100 : ((1:ℚ) * 100) = 100 := by norm_num
  rw [h100, rustRound, if_pos (by norm_num), ratFloor_eq]
  have hfl : ⌊(100 + 1/2 : ℚ)⌋ = 100 := by norm_num [Int.floor_eq_iff]
  rw [hfl]
  norm_num

/-- Witness for C1 at the one-byte string `"a"`. -/
theorem C1_witness : similarity_score [97] [97] = 1 :=
  C1_identity_amended [97] (by decide) (Or.inl (by decide))

/-- Counterexample to C1 as stated: the single-space string is non-empty,
yet `compute_similarity(" ", " ") = 0.3`, not `1.0` (the token metric
applies because of the space byte, scores `0` on tokenless sides, and the
aggregate is `0` for a tokenless target, so the score is `0.3 · char`). -/
theorem C1_counterexample : ([32] : Str) ≠ [] ∧ similarity_score [32] [32] ≠ 1 := by
  constructor
  · decide
  · norm_num [similarity_score, aggregated_partial_similarity, blend_token_char_raw,
      token_jaccard_multiset, char_similarity, Prepared.new, tokens, tokensGo, isWs,
      tokenStrs, substr, chunksOf, chunksGo, aggLoop, partial_similarity,
      span_from_tokens, mismatches, rustRound, ratFloor, windowCandidates, windowsOf,
      bestLoop, padOf]

/-- C2 (amended): the Token-Multiset Metric signals "none" exactly when
neither input contains a space byte (0x20) — the code's gate, which only
approximates "both inputs are single tokens" — in that case the Blend
Function equals the Character Metric alone, and
`compute_similarity("cat", "bat") = 0.67`. -/
theorem C2_none_gate_amended :
    (∀ a b : Str, token_jaccard_multiset a b = none ↔
      (a.contains 32 = false ∧ b.contains 32 = false)) ∧
    (∀ a b : Str, token_jaccard_multiset a b = none →
      blend_token_char_raw a b = char_similarity a b) ∧
    similarity_score [99, 97, 116] [98, 97, 116] = 67 / 100 := by
  refine ⟨?_, ?_, ?_⟩
  · intro a b
    rw [token_jaccard_multiset]
    split_ifs with hc
    · simp only [Bool.and_eq_true, Bool.not_eq_true'] at hc
      have h1 : 32 ∉ a := by simpa using hc.1
      have h2 : 32 ∉ b := by simpa using hc.2
      simp [h1, h2]
    · simp only [Bool.and_eq_true, Bool.not_eq_true'] at hc
      dsimp only
      constructor
      · intro h
        split_ifs at h
      · intro h
        exact absurd h hc
  · intro a b h
    rw [blend_token_char_raw, h]
  · norm_num [similarity_score, aggregated_partial_similarity, blend_token_char_raw,
      token_jaccard_multiset, char_similarity, Prepared.new, tokens, tokensGo, isWs,
      tokenStrs, substr, chunksOf, chunksGo, aggLoop, partial_similarity,
      span_from_tokens, mismatches, rustRound, ratFloor, windowCandidates, windowsOf,
      bestLoop, padOf]

/-- Witness for C2 (amended) at `"hi"` versus `"yo"`: no space byte on
either side, so the metric signals none and the blend is the character
metric alone. -/
theorem C2_witness :
    token_jaccard_multiset [104, 105] [121, 111] = none ∧
      blend_token_char_raw [104, 105] [121, 111] = char_similarity [104, 105] [121, 111] := by
  have h : token_jaccard_multiset [104, 105] [121, 111] = none :=
    (C2_none_gate_amended.1 [104, 105] [121, 111]).mpr ⟨by decide, by decide⟩
  exact ⟨h, C2_none_gate_amended.2.1 [104, 105] [121, 111] h⟩

/-- Counterexample to C2 as stated: `"a\tb"` has two tokens (tab-separated,
so not a single token), yet the metric signals "none" for
`("a\tb", "c")` because neither side contains a space byte — "none"
is not equivalent to "both inputs are single tokens". -/
theorem C2_counterexample :
    token_jaccard_multiset [97, 9, 98] [99] = none ∧
      (tokens [97, 9, 98]).length = 2 := by
  constructor
  · rw [token_jaccard_multiset, if_pos (by decide)]
  · decide

/-- C4: on the banded path (length difference `> 2`, neither input empty)
the band equals `max(64, max len)`, the Levenshtein distance never exceeds
that band (so the `None → 0.0` fallback of `levenshtein_simd_k` is
unreachable), and the similarity is `1 − distance / max len`. -/
theorem C4_banded_path (a b : Str) (ha : a ≠ []) (hb : b ≠ [])
    (hdiff : 2 < max a.length b.length - min a.length b.length) :
    (if max a.length b.length ≤ 64 then 64 else max a.length b.length)
        = max 64 (max a.length b.length) ∧
      lev a b ≤ max 64 (max a.length b.length) ∧
      char_similarity a b =
        1 - ((lev a b : ℕ) : ℚ) / ((max a.length b.length : ℕ) : ℚ) := by
  have hband : (if max a.length b.length ≤ 64 then 64 else max a.length b.length)
      = max 64 (max a.length b.length) := by
    split <;> omega
  have hd : lev a b ≤ max 64 (max a.length b.length) :=
    le_trans (lev_le_max a b) (by omega)
  refine ⟨hband, hd, ?_⟩
  have hla : a.length ≠ 0 := by simpa using ha
  have hlb : b.length ≠ 0 := by simpa using hb
  simp only [char_similarity]
  rw [if_neg (by omega), if_neg (by omega), if_neg (by omega), hband, if_pos hd]

/-- Witness for C4 at `"abcdef"` versus `"ab"` (length difference 4). -/
theorem C4_witness :
    (([97, 98, 99, 100, 101, 102] : Str) ≠ [] ∧ ([97, 98] : Str) ≠ [] ∧
      2 < max (6 : ℕ) 2 - min 6 2) ∧
    ((if max ([97, 98, 99, 100, 101, 102] : Str).length ([97, 98] : Str).length ≤ 64
        then 64 else max ([97, 98, 99, 100, 101, 102] : Str).length ([97, 98] : Str).length)
        = max 64 (max ([97, 98, 99, 100, 101, 102] : Str).length ([97, 98] : Str).length) ∧
      lev [97, 98, 99, 100, 101, 102] [97, 98]
        ≤ max 64 (max ([97, 98, 99, 100, 101, 102] : Str).length ([97, 98] : Str).length) ∧
      char_similarity [97, 98, 99, 100, 101, 102] [97, 98] =
        1 - ((lev [97, 98, 99, 100, 101, 102] [97, 98] : ℕ) : ℚ)
          / ((max ([97, 98, 99, 100, 101, 102] : Str).length ([97, 98] : Str).length : ℕ) : ℚ)) :=
  ⟨⟨by decide, by decide, by decide⟩,
    C4_banded_path [97, 98, 99, 100, 101, 102] [97, 98] (by decide) (by decide) (by decide)⟩

/-- The zip-based mismatch count equals the spec-side index-based count of
differing positions below the shorter length. -/
theorem mismatches_eq_spec (a b : Str) : mismatches a b = specMismatches a b := by
  induction a generalizing b with
  | nil => simp [mismatches, specMismatches]
  | cons x xs ih =>
    cases b with
    | nil => simp [mismatches, specMismatches]
    | cons y ys =>
      have ihy := ih ys
      simp only [mismatches, specMismatches] at ihy ⊢
      simp only [List.zipWith_cons_cons, List.sum_cons, List.length_cons,
        Nat.succ_min_succ, List.range_succ_eq_map, List.countP_cons, List.countP_map]
      simp only [Function.comp_def, List.getD_cons_succ, List.getD_cons_zero]
      by_cases hxy : x = y <;> simp [hxy] at ihy ⊢ <;> omega

/-- Truncating both inputs to the shorter length does not change the
mismatch count (the zip already stops at the shorter list). -/
theorem mismatches_take (a b : Str) :
    mismatches (a.take (min a.length b.length)) (b.take (min a.length b.length)) =
      mismatches a b := by
  rw [mismatches, mismatches, ← List.take_zipWith]
  have hlen : min a.length b.length
      = (List.zipWith (fun x y => if x = y then 0 else 1) a b).length := by
    rw [List.length_zipWith]
  rw [hlen, List.take_length]

/-- C5: the empty-string cases of the Character Metric, and the fast path
for length difference `≤ 2`: the score is `1 − mismatches/min_len` where
`mismatches` counts differing positions below `min_len`, and the metric
ignores everything beyond the compared prefix (truncating both inputs to
the shorter length leaves the score unchanged). -/
theorem C5_fast_path_and_empty (a b : Str) :
    (a = [] → b = [] → char_similarity a b = 1) ∧
    (a = [] → b ≠ [] → char_similarity a b = 0) ∧
    (a ≠ [] → b = [] → char_similarity a b = 0) ∧
    (a ≠ [] → b ≠ [] → max a.length b.length - min a.length b.length ≤ 2 →
      char_similarity a b =
        1 - ((specMismatches a b : ℕ) : ℚ) * (1 / ((min a.length b.length : ℕ) : ℚ)) ∧
      char_similarity a b =
        char_similarity (a.take (min a.length b.length)) (b.take (min a.length b.length))) := by
  refine ⟨?_, ?_, ?_, ?_⟩
  · intro ha hb
    subst ha; subst hb
    simp [char_similarity]
  · intro ha hb
    subst ha
    have hlb : b.length ≠ 0 := by simpa using hb
    simp only [char_similarity]
    rw [if_neg (by simp [hlb]), if_pos (by simp)]
  · intro ha hb
    subst hb
    have hla : a.length ≠ 0 := by simpa using ha
    simp only [char_similarity]
    rw [if_neg (by simp [hla]), if_pos (by simp)]
  · intro ha hb hdiff
    have hla : a.length ≠ 0 := by simpa using ha
    have hlb : b.length ≠ 0 := by simpa using hb
    have hfast : char_similarity a b =
        1 - ((mismatches (a.take (min a.length b.length))
            (b.take (min a.length b.length)) : ℕ) : ℚ)
          * (1 / ((min a.length b.length : ℕ) : ℚ)) := by
      simp only [char_similarity]
      rw [if_neg (by omega), if_neg (by omega), if_pos hdiff]
    constructor
    · rw [hfast, mismatches_take, mismatches_eq_spec]
    · rw [hfast]
      have hta : (a.take (min a.length b.length)).length = min a.length b.length := by
        rw [List.length_take]
        omega
      have htb : (b.take (min a.length b.length)).length = min a.length b.length := by
        rw [List.length_take]
        omega
    -- evaluate the truncated call: equal lengths, difference 0, fast path
      simp only [char_similarity, hta, htb]
      rw [if_neg (by omega), if_neg (by omega), if_pos (by omega)]
      rw [min_self, List.take_take, List.take_take, min_self]

/-- Witness for C5 at `"cat"` versus `"bat"` (fast path, one mismatch in
three bytes). -/
theorem C5_witness :
    char_similarity [99, 97, 116] [98, 97, 116] =
      1 - ((specMismatches [99, 97, 116] [98, 97, 116] : ℕ) : ℚ)
        * (1 / ((min ([99, 97, 116] : Str).length ([98, 97, 116] : Str).length : ℕ) : ℚ)) :=
  ((C5_fast_path_and_empty [99, 97, 116] [98, 97, 116]).2.2.2
    (by decide) (by decide) (by decide)).1

/-- The executable pad `(3·n + 9) / 10` is exactly the ceiling
`⌈n · 0.30⌉` of the claim. -/
theorem padOf_eq_ceil (n : ℕ) : padOf n = Nat.ceil ((n : ℚ) * (3/10)) := by
  rcases Nat.eq_zero_or_pos n with h0 | hpos
  · subst h0
    simp [padOf]
  · have hp : padOf n ≠ 0 := by
      rw [padOf]
      omega
    have hcast : ((n : ℚ) * (3/10)) = ((3 * n : ℕ) : ℚ) / 10 := by
      push_cast
      ring
    rw [eq_comm, Nat.ceil_eq_iff hp, hcast]
    constructor
    · rw [lt_div_iff₀ (by norm_num)]
      have hlt : (padOf n - 1) * 10 < 3 * n := by
        rw [padOf]
        omega
      calc ((padOf n - 1 : ℕ) : ℚ) * 10 = (((padOf n - 1) * 10 : ℕ) : ℚ) := by
            push_cast
            ring
      _ < ((3 * n : ℕ) : ℚ) := by exact_mod_cast hlt
    · rw [div_le_iff₀ (by norm_num)]
      have hle : 3 * n ≤ padOf n * 10 := by
        rw [padOf]
        omega
      calc ((3 * n : ℕ) : ℚ) ≤ ((padOf n * 10 : ℕ) : ℚ) := by exact_mod_cast hle
      _ = (padOf n : ℚ) * 10 := by
            push_cast
            ring

/-- Every member of a list bounds a `max`-fold over it from below. -/
theorem mem_le_foldr_max (l : List ℚ) (c : ℚ) : c ∈ l → ∀ x : ℚ, c ≤ l.foldr max x := by
  induction l with
  | nil => intro hc; cases hc
  | cons d rest ih =>
    intro hc x
    rcases List.mem_cons.mp hc with h | h
    · subst h
      exact le_max_left _ _
    · exact le_trans (ih h x) (le_max_right _ _)

/-- C6: the Sliding-Window Matcher returns the whole-string blend for
queries of at most 1 or more than 20 tokens, `0` for a tokenless target,
and otherwise the maximum blend score over every contiguous target-token
window whose size lies in
`[max(1, q − ⌈q·0.30⌉), min(q + ⌈q·0.30⌉, 30, target_count)]`,
which in particular is `1` as soon as some window scores a perfect match
(and `0` when the window size range is empty, the fold over no candidates). -/
theorem C6_sliding_window (query target : Str) :
    ((tokens query).length ≤ 1 ∨ 20 < (tokens query).length →
      partial_similarity query target = blend_token_char_raw query target) ∧
    (1 < (tokens query).length → (tokens query).length ≤ 20 → tokens target = [] →
      partial_similarity query target = 0) ∧
    (1 < (tokens query).length → (tokens query).length ≤ 20 → tokens target ≠ [] →
      partial_similarity query target =
        (windowCandidates query target (tokens target)
          (max ((tokens query).length
            - Nat.ceil (((tokens query).length : ℚ) * (3/10))) 1)
          (min (min ((tokens query).length
            + Nat.ceil (((tokens query).length : ℚ) * (3/10))) 30)
            (tokens target).length)).foldr max 0 ∧
      (∀ c ∈ windowCandidates query target (tokens target)
          (max ((tokens query).length
            - Nat.ceil (((tokens query).length : ℚ) * (3/10))) 1)
          (min (min ((tokens query).length
            + Nat.ceil (((tokens query).length : ℚ) * (3/10))) 30)
            (tokens target).length),
        c = 1 → partial_similarity query target = 1)) := by
  refine ⟨?_, ?_, ?_⟩
  · intro h
    simp only [partial_similarity]
    rw [if_pos h]
  · intro h1 h2 ht
    simp only [partial_similarity]
    rw [if_neg (by omega), if_pos ht]
  · intro h1 h2 ht
    rw [← padOf_eq_ceil]
    have hall : ∀ c ∈ windowCandidates query target (tokens target)
        (max ((tokens query).length - padOf (tokens query).length) 1)
        (min (min ((tokens query).length + padOf (tokens query).length) 30)
          (tokens target).length), c ≤ 1 := by
      intro c hc
      obtain ⟨sl, rfl⟩ := windowCandidates_shape _ _ _ _ _ c hc
      exact (blend_mem _ _).2
    have heq : partial_similarity query target =
        (windowCandidates query target (tokens target)
          (max ((tokens query).length - padOf (tokens query).length) 1)
          (min (min ((tokens query).length + padOf (tokens query).length) 30)
            (tokens target).length)).foldr max 0 := by
      simp only [partial_similarity]
      rw [if_neg (by omega), if_neg ht]
      exact bestLoop_eq_foldr _ 0 hall (by norm_num)
    refine ⟨heq, ?_⟩
    intro c hc hc1
    have hle := foldr_max_le_of _ 0 1 hall (by norm_num)
    have hge := mem_le_foldr_max _ c hc 0
    rw [hc1] at hge
    rw [heq]
    linarith

/-- Witness for C6 at the two-token query `"a b"` against itself. -/
theorem C6_witness :
    partial_similarity [97, 32, 98] [97, 32, 98] =
      (windowCandidates [97, 32, 98] [97, 32, 98] (tokens [97, 32, 98])
        (max ((tokens [97, 32, 98]).length
          - Nat.ceil (((tokens [97, 32, 98]).length : ℚ) * (3/10))) 1)
        (min (min ((tokens [97, 32, 98]).length
          + Nat.ceil (((tokens [97, 32, 98]).length : ℚ) * (3/10))) 30)
          (tokens [97, 32, 98]).length)).foldr max 0 :=
  ((C6_sliding_window [97, 32, 98] [97, 32, 98]).2.2
    (by decide) (by decide) (by decide)).1

/-- With sufficient fuel and positive chunk length, the chunks concatenate
back to the original list: chunking is a partition. -/
theorem chunksGo_flatten (n : Nat) (hn : 0 < n) :
    ∀ (fuel : Nat) (l : List (Nat × Nat)), l.length ≤ fuel →
      (chunksGo n fuel l).flatten = l := by
  intro fuel
  induction fuel with
  | zero =>
    intro l hl
    have hnil : l = [] := List.length_eq_zero.mp (Nat.le_zero.mp hl)
    subst hnil
    simp [chunksGo]
  | succ f ih =>
    intro l hl
    cases l with
    | nil => simp [chunksGo]
    | cons x xs =>
      simp only [chunksGo, List.flatten_cons]
      rw [ih ((x :: xs).drop n) ?_]
      · exact List.take_append_drop n (x :: xs)
      · rw [List.length_drop]
        simp only [List.length_cons] at hl ⊢
        omega

/-- With sufficient fuel and positive chunk length, every chunk is
non-empty and no longer than the chunk length. -/
theorem chunksGo_shape (n : Nat) (hn : 0 < n) :
    ∀ (fuel : Nat) (l : List (Nat × Nat)), l.length ≤ fuel →
      ∀ ch ∈ chunksGo n fuel l, ch ≠ [] ∧ ch.length ≤ n := by
  intro fuel
  induction fuel with
  | zero =>
    intro l hl ch hch
    have hnil : l = [] := List.length_eq_zero.mp (Nat.le_zero.mp hl)
    subst hnil
    simp [chunksGo] at hch
  | succ f ih =>
    intro l hl ch hch
    cases l with
    | nil => simp [chunksGo] at hch
    | cons x xs =>
      simp only [chunksGo, List.mem_cons] at hch
      rcases hch with rfl | hch
      · constructor
        · rcases n with _ | m
          · omega
          · simp
        · rw [List.length_take]
          omega
      · refine ih ((x :: xs).drop n) ?_ ch hch
        rw [List.length_drop]
        simp only [List.length_cons] at hl ⊢
        omega

/-- C7: the Chunked Aggregator returns `0` for a tokenless target;
otherwise, with chunk length `clamp(q_tokens·3, 50, 100)` capped at the
target's token count, it partitions the target's tokens into consecutive
chunks of that length (last possibly shorter) and returns the sum of the
per-chunk sliding-window scores capped at `1` (the `1.0` short-circuit
changes nothing, since chunk scores are nonnegative). -/
theorem C7_chunked_aggregator (q t : Prepared) :
    (t.tokens = [] → aggregated_partial_similarity q t = 0) ∧
    (t.tokens ≠ [] →
      (chunksOf (min (min (max (q.tokens.length * 3) 50) 100) t.tokens.length)
          t.tokens).flatten = t.tokens ∧
      (∀ ch ∈ chunksOf (min (min (max (q.tokens.length * 3) 50) 100) t.tokens.length)
          t.tokens, ch ≠ [] ∧
          ch.length ≤ min (min (max (q.tokens.length * 3) 50) 100) t.tokens.length) ∧
      aggregated_partial_similarity q t =
        min ((chunksOf (min (min (max (q.tokens.length * 3) 50) 100) t.tokens.length)
            t.tokens).map
          (fun ch => partial_similarity q.raw (span_from_tokens t.raw ch))).sum 1) := by
  constructor
  · intro h
    simp only [aggregated_partial_similarity]
    rw [if_pos h]
  · intro h
    have hlen1 : 1 ≤ t.tokens.length := by
      rcases htk : t.tokens with _ | ⟨p, ps⟩
      · exact absurd htk h
      · simp [htk]
    have hC : min (min (max (max q.tokens.length 1 * 3) 50) 100) t.tokens.length
        = min (min (max (q.tokens.length * 3) 50) 100) t.tokens.length := by
      omega
    have hpos : 0 < min (min (max (q.tokens.length * 3) 50) 100) t.tokens.length := by
      omega
    refine ⟨chunksGo_flatten _ hpos _ _ (le_refl _),
      chunksGo_shape _ hpos _ _ (le_refl _), ?_⟩
    simp only [aggregated_partial_similarity]
    rw [if_neg h, hC, aggLoop_eq_min, zero_add]

/-- Witness for C7 at the query `"a"` against the target `"b c"`. -/
theorem C7_witness :
    (chunksOf (min (min (max ((Prepared.new [97]).tokens.length * 3) 50) 100)
        (Prepared.new [98, 32, 99]).tokens.length)
        (Prepared.new [98, 32, 99]).tokens).flatten = (Prepared.new [98, 32, 99]).tokens ∧
    (∀ ch ∈ chunksOf (min (min (max ((Prepared.new [97]).tokens.length * 3) 50) 100)
        (Prepared.new [98, 32, 99]).tokens.length) (Prepared.new [98, 32, 99]).tokens,
      ch ≠ [] ∧ ch.length ≤ min (min (max ((Prepared.new [97]).tokens.length * 3) 50) 100)
        (Prepared.new [98, 32, 99]).tokens.length) ∧
    aggregated_partial_similarity (Prepared.new [97]) (Prepared.new [98, 32, 99]) =
      min ((chunksOf (min (min (max ((Prepared.new [97]).tokens.length * 3) 50) 100)
          (Prepared.new [98, 32, 99]).tokens.length) (Prepared.new [98, 32, 99]).tokens).map
        (fun ch => partial_similarity (Prepared.new [97]).raw
          (span_from_tokens (Prepared.new [98, 32, 99]).raw ch))).sum 1 :=
  (C7_chunked_aggregator (Prepared.new [97]) (Prepared.new [98, 32, 99])).2 (by decide)

/-- Positional invariant of the tokeniser worker: provided the token being
built (if any) ends exactly at the cursor, every emitted token starts at
or after the cursor (or at the pending token's start) and ends within the
input. -/
theorem tokensGo_bounds (s : Str) : ∀ (i : Nat) (acc : Option (Nat × Nat)),
    (∀ u, acc = some u → u.1 + u.2 = i) →
    ∀ p ∈ tokensGo s i acc,
      (acc = none → i ≤ p.1) ∧ (∀ u, acc = some u → u.1 ≤ p.1) ∧
        p.1 + p.2 ≤ i + s.length := by
  induction s with
  | nil =>
    intro i acc hinv p hp
    cases acc with
    | none => simp [tokensGo] at hp
    | some u =>
      simp only [tokensGo, List.mem_singleton] at hp
      subst hp
      refine ⟨fun h => by simp at h, fun v hv => by cases hv; exact le_refl _, ?_⟩
      have := hinv p rfl
      omega
  | cons c cs ih =>
    intro i acc hinv p hp
    cases acc with
    | none =>
      by_cases hws : isWs c
      · have hrec : p ∈ tokensGo cs (i + 1) none := by
          simpa [tokensGo, hws] using hp
        have hres := ih (i + 1) none (by simp) p hrec
        refine ⟨fun _ => ?_, fun u hu => by simp at hu, ?_⟩
        · have := hres.1 rfl
          omega
        · have := hres.2.2
          simp only [List.length_cons]
          omega
      · have hrec : p ∈ tokensGo cs (i + 1) (some (i, 1)) := by
          simpa [tokensGo, hws] using hp
        have hres := ih (i + 1) (some (i, 1)) (by intro u hu; cases hu; rfl) p hrec
        refine ⟨fun _ => ?_, fun u hu => by simp at hu, ?_⟩
        · exact hres.2.1 (i, 1) rfl
        · have := hres.2.2
          simp only [List.length_cons]
          omega
    | some u =>
      have hui : u.1 + u.2 = i := hinv u rfl
      by_cases hws : isWs c
      · have hp2 : p = u ∨ p ∈ tokensGo cs (i + 1) none := by
          simpa [tokensGo, hws] using hp
        rcases hp2 with rfl | hrec
        · refine ⟨fun h => by simp at h, fun v hv => by cases hv; exact le_refl _, by omega⟩
        · have hres := ih (i + 1) none (by simp) p hrec
          have h1 := hres.1 rfl
          have h2 := hres.2.2
          refine ⟨fun h => by simp at h, fun v hv => ?_, ?_⟩
          · cases hv
            omega
          · simp only [List.length_cons]
            omega
      · have hrec : p ∈ tokensGo cs (i + 1) (some (u.1, u.2 + 1)) := by
          simpa [tokensGo, hws] using hp
        have hres := ih (i + 1) (some (u.1, u.2 + 1))
          (by intro v hv; cases hv; simp; omega) p hrec
        have h1 := hres.2.1 (u.1, u.2 + 1) rfl
        have h2 := hres.2.2
        refine ⟨fun h => by simp at h, fun v hv => ?_, ?_⟩
        · cases hv
          exact h1
        · simp only [List.length_cons]
          omega

/-- The emitted tokens are pairwise separated: each token ends at or
before the start of any later token. -/
theorem tokensGo_pairwise (s : Str) : ∀ (i : Nat) (acc : Option (Nat × Nat)),
    (∀ u, acc = some u → u.1 + u.2 = i) →
    List.Pairwise (fun p q : Nat × Nat => p.1 + p.2 ≤ q.1) (tokensGo s i acc) := by
  induction s with
  | nil =>
    intro i acc hinv
    cases acc <;> simp [tokensGo]
  | cons c cs ih =>
    intro i acc hinv
    cases acc with
    | none =>
      by_cases hws : isWs c
      · simpa [tokensGo, hws] using ih (i + 1) none (by simp)
      · simpa [tokensGo, hws] using
          ih (i + 1) (some (i, 1)) (by intro u hu; cases hu; rfl)
    | some u =>
      have hui : u.1 + u.2 = i := hinv u rfl
      by_cases hws : isWs c
      · have hhead : ∀ q ∈ tokensGo cs (i + 1) none, u.1 + u.2 ≤ q.1 := by
          intro q hq
          have := (tokensGo_bounds cs (i + 1) none (by simp) q hq).1 rfl
          omega
        have htail := ih (i + 1) none (by simp)
        simpa [tokensGo, hws] using List.pairwise_cons.mpr ⟨hhead, htail⟩
      · simpa [tokensGo, hws] using
          ih (i + 1) (some (u.1, u.2 + 1)) (by intro v hv; cases hv; simp; omega)

/-- Every token of `s` lies within the byte range of `s`. -/
theorem tokens_bounds (s : Str) (p : Nat × Nat) (hp : p ∈ tokens s) :
    p.1 + p.2 ≤ s.length := by
  have := (tokensGo_bounds s 0 none (by simp) p hp).2.2
  omega

/-- The tokens of `s` are pairwise separated, in order. -/
theorem tokens_pairwise (s : Str) :
    List.Pairwise (fun p q : Nat × Nat => p.1 + p.2 ≤ q.1) (tokens s) :=
  tokensGo_pairwise s 0 none (by simp)

/-- `getLastD` picks an element of the list extended with the default. -/
theorem getLastD_mem (l : List (Nat × Nat)) : ∀ d : Nat × Nat, l.getLastD d ∈ d :: l := by
  induction l with
  | nil => intro d; simp
  | cons x xs ih =>
    intro d
    rw [List.getLastD_cons]
    rcases List.mem_cons.mp (ih x) with h | h
    · rw [h]
      simp
    · exact List.mem_cons_of_mem _ (List.mem_cons_of_mem _ h)

/-- C9: for every non-empty contiguous run of tokens of `s`, the byte
range from the first token's start to the last token's end is a valid
slice of `s` (`start ≤ end ≤ length`), so the unchecked slice in
`span_from_tokens` is in bounds, and the span is exactly that substring;
the empty run yields the empty string. -/
theorem C9_span_bounds (s : Str) (run : List (Nat × Nat)) (hrun : run <:+: tokens s)
    (t : Nat × Nat) (rest : List (Nat × Nat)) (heq : run = t :: rest) :
    t.1 ≤ (rest.getLastD t).1 + (rest.getLastD t).2 ∧
      (rest.getLastD t).1 + (rest.getLastD t).2 ≤ s.length ∧
      span_from_tokens s run
        = substr s t.1 ((rest.getLastD t).1 + (rest.getLastD t).2 - t.1) ∧
      span_from_tokens s [] = [] := by
  subst heq
  have hsub : List.Sublist (t :: rest) (tokens s) := hrun.sublist
  have hp : List.Pairwise (fun p q : Nat × Nat => p.1 + p.2 ≤ q.1) (t :: rest) :=
    (tokens_pairwise s).sublist hsub
  have hlast_mem : rest.getLastD t ∈ t :: rest := getLastD_mem rest t
  have hbound : (rest.getLastD t).1 + (rest.getLastD t).2 ≤ s.length :=
    tokens_bounds s _ (hsub.subset hlast_mem)
  have hfirst : t.1 ≤ (rest.getLastD t).1 + (rest.getLastD t).2 := by
    rcases List.mem_cons.mp hlast_mem with h | h
    · rw [h]
      omega
    · have := (List.pairwise_cons.mp hp).1 _ h
      omega
  exact ⟨hfirst, hbound, rfl, rfl⟩

/-- Witness for C9 at `"ab cd"` with the full two-token run. -/
theorem C9_witness :
    ((0, 2) : Nat × Nat).1 ≤ (([((3, 2) : Nat × Nat)].getLastD (0, 2)).1
        + ([((3, 2) : Nat × Nat)].getLastD (0, 2)).2) ∧
      (([((3, 2) : Nat × Nat)].getLastD (0, 2)).1
        + ([((3, 2) : Nat × Nat)].getLastD (0, 2)).2) ≤ ([97, 98, 32, 99, 100] : Str).length ∧
      span_from_tokens [97, 98, 32, 99, 100] [(0, 2), (3, 2)]
        = substr [97, 98, 32, 99, 100] ((0, 2) : Nat × Nat).1
            ((([((3, 2) : Nat × Nat)].getLastD (0, 2)).1
              + ([((3, 2) : Nat × Nat)].getLastD (0, 2)).2) - ((0, 2) : Nat × Nat).1) ∧
      span_from_tokens [97, 98, 32, 99, 100] [] = [] :=
  C9_span_bounds [97, 98, 32, 99, 100] [(0, 2), (3, 2)]
    ⟨[], [], by decide⟩ (0, 2) [(3, 2)] rfl

end Fuzler
